import Mathlib

/-!
Verification of the web-research-mcp content/URL pipeline.

This file gives a shallow embedding, in Lean 4, of the algorithmic core of
the repository:

* `src/packages/mcp/src/server/utils/content.ts`
  (`cleanWhitespace`, `truncateAtBoundary`, `extractTitle`, the
  whitespace/truncation stage of `extractContent`, `normalizeUrl`,
  `deduplicateUrls`),
* `src/packages/mcp/src/server/tools/fetch.ts` (`fetchPages` aggregation),
* the search tool (`multiSearch` sequencing and aggregation).

Modelling conventions:

* JS strings are modelled as `List Char` (one `Char` per UTF-16 unit; every
  concrete input used below is ASCII, where the two notions of length and
  indexing coincide).  `String` appears only as surface syntax via `.data`.
* JS `Array`/object iteration becomes structural recursion or `foldl` in the
  same traversal order as the source loops.
* A JS object used as a string-keyed map becomes an association list with
  distinct keys; property assignment `m[k] = v` becomes `setRec`, which
  updates the first matching key in place or appends a fresh key at the end,
  exactly the JS property-order semantics for objects built from scratch.
* The host `URL` parser, the DOM parser and the HTTP layer are external
  libraries, not code of this repository; they are abstracted as function
  parameters (`parse`) or as the already-parsed data (`ParsedUrl`,
  `ParsedDoc`, per-URL fetch outcomes, per-query search results).  Everything
  the repository itself computes from those values is embedded faithfully.
* `truncateAtBoundary` compares an integer index against `maxChars * 0.7`
  (and `* 0.8`), computed in IEEE-754 binary64 by JS.  The embedding models
  that arithmetic exactly, with integers, for every `maxChars < 2^53` (the
  range in which a JS number holds the integer `maxChars` exactly): the
  binary64 values nearest to 0.7 and 0.8 are `6305039478318694 / 2^53` and
  `7205759403792794 / 2^53`; the exact product of such a value with the
  integer `maxChars` is a rational with denominator `2^53` whose numerator
  IEEE-754 rounds to a 53-bit significand, to nearest, ties to even
  (`rne` / `flProd`); and comparing the resulting double with the integer
  index is exact, done here by cross-multiplication (`gtFl`).  The rounded
  product can land on either side of the exact rational `0.7 * maxChars`:
  `10 * fl(0.7)` rounds (on a tie, to the even significand) up to exactly
  `7.0`, so at `maxChars = 10` the strict `>` rejects a paragraph break at
  index 7, exactly 70%; while `90 * fl(0.7)` rounds down to
  `62.99999999999999289...`, so at `maxChars = 90` the code accepts a break
  at index 63, exactly 70%.  Both behaviours are proved below of the
  embedded gate.
-/

namespace WebResearch

/-- Characters removed by JS `String.prototype.trim` that can occur in this
development: ASCII whitespace, NBSP and the BOM.  (The full JS set also has
the Unicode `Zs` class and ` `/` `; no value below contains those,
and every lemma about `jsTrim` holds for any such character predicate.) -/
def isJsSpace (c : Char) : Bool :=
  c = ' ' || c = '\t' || c = '\n' || c = '\r' || c = '\x0b' || c = '\x0c' ||
    c = ' ' || c = '﻿'

/-- JS `s.trim()`: drop `isJsSpace` characters from both ends. -/
def jsTrim (l : List Char) : List Char :=
  ((l.dropWhile isJsSpace).reverse.dropWhile isJsSpace).reverse

/-- Single pass behind JS `replace(/\n{3,}/g, "\n\n")`: `run` counts the
newlines already consumed in the current run, and of each maximal run only
the first two newlines are emitted, so a run of three or more newlines
collapses to exactly two and shorter runs are kept. -/
def collapseNlGo (run : Nat) : List Char → List Char
  | [] => []
  | x :: rest =>
    if x = '\n' then (if run < 2 then ['\n'] else []) ++ collapseNlGo (run + 1) rest
    else x :: collapseNlGo 0 rest

/-- JS `replace(/\n{3,}/g, "\n\n")`. -/
def collapseNewlines (l : List Char) : List Char := collapseNlGo 0 l

/-- Single pass behind JS `replace(/ {2,}/g, " ")`: `inRun` records whether
the previous character was a space; only the first space of each maximal run
is emitted, so every run of two or more spaces collapses to a single space
and lone spaces are kept. -/
def collapseSpGo (inRun : Bool) : List Char → List Char
  | [] => []
  | x :: rest =>
    if x = ' ' then (if inRun then [] else [' ']) ++ collapseSpGo true rest
    else x :: collapseSpGo false rest

/-- JS `replace(/ {2,}/g, " ")`. -/
def collapseSpaces (l : List Char) : List Char := collapseSpGo false l

/-- JS `s.split("\n")`: split at every newline, keeping empty pieces, so the
empty string yields one empty piece. -/
def splitNl : List Char → List (List Char)
  | [] => [[]]
  | x :: rest =>
    if x = '\n' then [] :: splitNl rest
    else
      match splitNl rest with
      | [] => [[x]]
      | p :: ps => (x :: p) :: ps

/-- JS `parts.join(sep)` for a one-character separator. -/
def joinSep (sep : Char) : List (List Char) → List Char
  | [] => []
  | [p] => p
  | p :: q :: ps => p ++ sep :: joinSep sep (q :: ps)

/-- Embedding of `cleanWhitespace` (content.ts lines 121-133): collapse 3+
newlines to 2, collapse 2+ spaces to 1, trim each line, trim the result. -/
def cleanWhitespace (l : List Char) : List Char :=
  jsTrim (joinSep '\n'
    (((splitNl (collapseSpaces (collapseNewlines l))).map jsTrim)))

/-- JS `l.lastIndexOf(pat)` for a string `pat`: the largest start index of an
occurrence of `pat`, or `-1` when there is none. -/
def lastIndexOf (l pat : List Char) : Int :=
  match ((List.range (l.length + 1)).filter
      (fun i => (l.drop i).take pat.length == pat)).getLast? with
  | some i => (i : Int)
  | none => -1

/-- Marker appended by the paragraph and sentence tiers of
`truncateAtBoundary`. -/
def paraMarker : List Char := "\n\n[Content truncated...]".data

/-- Marker appended by the word-boundary and hard-cut tiers. -/
def hardMarker : List Char := "...\n\n[Content truncated...]".data

/-- Numerator over `2^53` of the binary64 value nearest to 0.7:
`0.7 * 2^53 = 6305039478318694.4`, rounded to `6305039478318694`. -/
def FL07 : Nat := 6305039478318694

/-- Numerator over `2^53` of the binary64 value nearest to 0.8:
`0.8 * 2^53 = 7205759403792793.6`, rounded to `7205759403792794`. -/
def FL08 : Nat := 7205759403792794

/-- Round `M / 2^s` to the nearest integer, ties to the even candidate —
IEEE-754 round-to-nearest-even of a `53 + s`-bit numerator down to a 53-bit
significand. -/
def rne (M s : Nat) : Nat :=
  if s = 0 then M
  else
    let q := M / 2 ^ s
    let r := M % 2 ^ s
    let half := 2 ^ (s - 1)
    if half < r then q + 1
    else if r < half then q
    else if q % 2 = 0 then q else q + 1

/-- Smallest `s` with `M < 2^(53+s)` — the excess of `M`'s bit length over
53 — found by repeated halving.  The fuel 1024 covers every `M` below
`2^1077`, far beyond the `maxChars < 2^53` domain in which the float model
is meaningful. -/
def shiftGo (fuel M : Nat) : Nat :=
  match fuel with
  | 0 => 0
  | fuel + 1 => if M < 2 ^ 53 then 0 else shiftGo fuel (M / 2) + 1

/-- Smallest `s` with `M < 2^(53+s)`. -/
def shiftFor (M : Nat) : Nat := shiftGo 1024 M

/-- The binary64 product `N * (c / 2^53)` for an exactly representable
integer `N < 2^53`, as the dyadic rational `m * 2^s / 2^53`: the exact
product `c * N / 2^53` has a `53 + s`-bit numerator, which IEEE-754 rounds
to the nearest 53-bit significand `m`, ties to even. -/
def flProd (c N : Nat) : Nat × Nat :=
  let M := c * N
  let s := shiftFor M
  (rne M s, s)

/-- The JS comparison `i > N * (c / 2^53)` in binary64: the index `i` is a
JS number holding an exact integer (`-1` included), and IEEE comparison of
two doubles is exact, so the gate is the exact cross-multiplied comparison
of `i` with the rounded product. -/
def gtFl (i : Int) (c N : Nat) : Bool :=
  decide (i * 2 ^ 53 > ((flProd c N).1 : Int) * 2 ^ (flProd c N).2)

/-- Embedding of `truncateAtBoundary` (content.ts lines 138-173).  The JS
float gates `i > maxChars * 0.7` and `i > maxChars * 0.8` are embedded as
the exact integer model of the binary64 comparison (`gtFl`); see the header
comment. -/
def truncateAtBoundary (text : List Char) (maxChars : Nat) : List Char :=
  if text.length ≤ maxChars then text
  else
    let truncated := text.take maxChars
    let lastPara := lastIndexOf truncated ['\n', '\n']
    if gtFl lastPara FL07 maxChars then
      jsTrim (truncated.take lastPara.toNat) ++ paraMarker
    else
      let lastSentence :=
        max (lastIndexOf truncated ['.', ' '])
          (max (lastIndexOf truncated ['!', ' ']) (lastIndexOf truncated ['?', ' ']))
      if gtFl lastSentence FL07 maxChars then
        jsTrim (truncated.take (lastSentence + 1).toNat) ++ paraMarker
      else
        let lastSpace := lastIndexOf truncated [' ']
        if gtFl lastSpace FL08 maxChars then
          jsTrim (truncated.take lastSpace.toNat) ++ hardMarker
        else
          jsTrim truncated ++ hardMarker

/-- Tier selection as the specification describes it: a list of (gate,
result) tiers is scanned in order and the first tier whose gate holds wins;
when no gate holds the final fallback is used. -/
def firstTier (dflt : List Char) : List (Bool × List Char) → List Char
  | [] => dflt
  | (g, r) :: rest => if g then r else firstTier dflt rest

/-- Specification-side statement of the truncation claim exactly as written:
the same four tiers, but each gate accepts a boundary at a position greater
than OR EQUAL to 70% (resp. 80%) of `maxChars`. -/
def truncateClaimC1 (text : List Char) (maxChars : Nat) : List Char :=
  if text.length ≤ maxChars then text
  else
    let truncated := text.take maxChars
    let lastPara := lastIndexOf truncated ['\n', '\n']
    let lastSentence :=
      max (lastIndexOf truncated ['.', ' '])
        (max (lastIndexOf truncated ['!', ' ']) (lastIndexOf truncated ['?', ' ']))
    let lastSpace := lastIndexOf truncated [' ']
    firstTier (jsTrim truncated ++ hardMarker)
      [(lastPara * 10 ≥ (maxChars : Int) * 7,
          jsTrim (truncated.take lastPara.toNat) ++ paraMarker),
        (lastSentence * 10 ≥ (maxChars : Int) * 7,
          jsTrim (truncated.take (lastSentence + 1).toNat) ++ paraMarker),
        (lastSpace * 10 ≥ (maxChars : Int) * 8,
          jsTrim (truncated.take lastSpace.toNat) ++ hardMarker)]

/-- Amended specification-side truncation: identical in shape to
`truncateClaimC1`, except that every gate is the source's strict `>`
comparison against the binary64 product `maxChars * 0.7` (resp. `* 0.8`) as
JS computes it, which sits within one unit in the last place of exact 70%
(resp. 80%) of `maxChars` and can fall on either side of it. -/
def truncateClaimAmended (text : List Char) (maxChars : Nat) : List Char :=
  if text.length ≤ maxChars then text
  else
    let truncated := text.take maxChars
    let lastPara := lastIndexOf truncated ['\n', '\n']
    let lastSentence :=
      max (lastIndexOf truncated ['.', ' '])
        (max (lastIndexOf truncated ['!', ' ']) (lastIndexOf truncated ['?', ' ']))
    let lastSpace := lastIndexOf truncated [' ']
    firstTier (jsTrim truncated ++ hardMarker)
      [(gtFl lastPara FL07 maxChars,
          jsTrim (truncated.take lastPara.toNat) ++ paraMarker),
        (gtFl lastSentence FL07 maxChars,
          jsTrim (truncated.take (lastSentence + 1).toNat) ++ paraMarker),
        (gtFl lastSpace FL08 maxChars,
          jsTrim (truncated.take lastSpace.toNat) ++ hardMarker)]

/-- Post-extraction stage of `extractContent` (content.ts lines 52-78): both
the Readability path and the fallback path feed the text extracted by the
HTML library through `cleanWhitespace` and, when the cleaned text is longer
than `maxChars`, through `truncateAtBoundary`.  The library-provided text is
the argument `extracted`. -/
def extractPipeline (extracted : List Char) (maxChars : Nat) : List Char :=
  let cleaned := cleanWhitespace extracted
  if cleaned.length > maxChars then truncateAtBoundary cleaned maxChars else cleaned

/-- Whether the text contains two adjacent spaces. -/
def hasDoubleSpace : List Char → Bool
  | [] => false
  | [_] => false
  | x :: y :: rest => (x = ' ' && y = ' ') || hasDoubleSpace (y :: rest)

/-- Whether the text contains three adjacent newlines. -/
def hasTripleNewline : List Char → Bool
  | '\n' :: '\n' :: '\n' :: _ => true
  | _ :: rest => hasTripleNewline rest
  | [] => false

/-- Tracking parameters removed during URL normalization (content.ts lines
215-240), verbatim. -/
def TRACKING_PARAMS : List String :=
  ["utm_source", "utm_medium", "utm_campaign", "utm_term", "utm_content",
    "utm_id", "utm_source_platform", "utm_creative_format",
    "utm_marketing_tactic", "fbclid", "gclid", "gclsrc", "dclid", "gbraid",
    "wbraid", "msclkid", "twclid", "igshid", "mc_cid", "mc_eid", "ref",
    "ref_", "source", "src"]

/-- JS `key.toLowerCase()` (ASCII case mapping; every key below is ASCII). -/
def lowerStr (s : String) : String := String.mk (s.data.map Char.toLower)

/-- The membership test `TRACKING_PARAMS.has(key.toLowerCase())`. -/
def isTracking (k : String) : Bool := TRACKING_PARAMS.contains (lowerStr k)

/-- JS property assignment `m[k] = v` on an object with distinct keys, and
equally `URLSearchParams.set(k, v)` on a parameter list with distinct keys
(the two coincide there): replace the value at the first matching key, or
append a fresh key at the end.  Every map below is built from the empty map
by `setRec`, so its keys are always distinct. -/
def setRec (k v : String) : List (String × String) → List (String × String)
  | [] => [(k, v)]
  | (k', v') :: rest => if k' = k then (k, v) :: rest else (k', v') :: setRec k v rest

/-- The query-parameter filtering loop of `normalizeUrl` (content.ts lines
260-266): iterate the decoded (key, value) pairs of the parsed URL in order
and `set` every pair whose lowercased key is not a tracking parameter. -/
def filterParams (ps : List (String × String)) : List (String × String) :=
  ps.foldl (fun acc kv => if isTracking kv.1 then acc else setRec kv.1 kv.2 acc) []

/-- Specification-side parameter filtering exactly as the claim states it:
drop tracking-named pairs and keep every other pair, repeats included, in
order. -/
def filterParamsClaimC2 (ps : List (String × String)) : List (String × String) :=
  ps.filter (fun kv => !(isTracking kv.1))

/-- Value of the last pair with key `k`, defaulting to `v`. -/
def lastValD (k v : String) : List (String × String) → String
  | [] => v
  | (k', v') :: rest => if k' = k then lastValD k v' rest else lastValD k v rest

/-- Specification-side description of `URLSearchParams.set`-style collapsing:
each distinct key keeps one entry, placed at the position of its first
occurrence and carrying the value of its last occurrence. -/
def collapseSpec : List (String × String) → List (String × String)
  | [] => []
  | (k, v) :: rest =>
    (k, lastValD k v rest) :: collapseSpec (rest.filter (fun p => p.1 ≠ k))
termination_by l => l.length
decreasing_by
  simp only [List.length_cons]
  exact Nat.lt_succ_of_le (List.length_filter_le _ _)

/-- The regex replacement `pathname.replace(/\/+$/, "")`: remove the maximal
trailing run of slashes. -/
def dropTrailingSlashes (p : String) : String :=
  String.mk ((p.data.reverse.dropWhile (fun c => c = '/')).reverse)

/-- Trailing-slash handling of `normalizeUrl` (content.ts lines 268-272).
JS `pathname.endsWith("/")` is embedded as a last-character test. -/
def normalizePath (p : String) : String :=
  if p = "/" then p
  else if p.data.getLast? = some '/' then dropTrailingSlashes p
  else p

/-- Specification-side path handling exactly as the claim states it: strip
exactly one trailing slash unless the path is exactly the root slash. -/
def normalizePathClaimC6 (p : String) : String :=
  if p = "/" then p
  else if p.data.getLast? = some '/' then String.mk p.data.dropLast
  else p

/-- Amended specification-side path handling: repeatedly strip a single
trailing slash until none remains, unless the path is exactly the root
slash. -/
def dropSlashIter (l : List Char) : List Char :=
  if hlast : l.getLast? = some '/' then dropSlashIter l.dropLast else l
termination_by l.length
decreasing_by
  have hne : l ≠ [] := by
    intro hl
    rw [hl] at hlast
    simp at hlast
  have hpos : 0 < l.length := List.length_pos.mpr hne
  simp only [List.length_dropLast]
  omega

/-- Hostname handling of `normalizeUrl` (content.ts lines 254-258):
lowercase, then strip one leading `www.` (JS `startsWith`/`slice(4)`,
expressed on the character list). -/
def normalizeHost (h : String) : String :=
  let h' := (lowerStr h).data
  if h'.take 4 = "www.".data then String.mk (h'.drop 4) else String.mk h'

/-- Hexadecimal digit (uppercase) for percent-encoding. -/
def hexDigit (n : Nat) : Char :=
  if n < 10 then Char.ofNat (48 + n) else Char.ofNat (55 + n)

/-- UTF-8 bytes of a code point. -/
def utf8Bytes (n : Nat) : List Nat :=
  if n < 0x80 then [n]
  else if n < 0x800 then [0xC0 + n / 64, 0x80 + n % 64]
  else if n < 0x10000 then [0xE0 + n / 4096, 0x80 + (n / 64) % 64, 0x80 + n % 64]
  else [0xF0 + n / 262144, 0x80 + (n / 4096) % 64, 0x80 + (n / 64) % 64, 0x80 + n % 64]

/-- Characters serialized verbatim by `URLSearchParams.toString`
(`application/x-www-form-urlencoded` serializer). -/
def isFormSafe (c : Char) : Bool :=
  ('a' ≤ c && c ≤ 'z') || ('A' ≤ c && c ≤ 'Z') || ('0' ≤ c && c ≤ '9') ||
    c = '*' || c = '-' || c = '.' || c = '_'

/-- Form-urlencoded serialization of one character. -/
def encodeChar (c : Char) : List Char :=
  if c = ' ' then ['+']
  else if isFormSafe c then [c]
  else (utf8Bytes c.toNat).flatMap (fun b => ['%', hexDigit (b / 16), hexDigit (b % 16)])

/-- Form-urlencoded serialization of a string. -/
def encodeStr (s : String) : List Char := s.data.flatMap encodeChar

/-- JS `params.toString()`: the filtered parameter list serialized as
`k=v` pairs joined by `&`. -/
def encodeQuery (ps : List (String × String)) : String :=
  String.mk (joinSep '&' (ps.map (fun kv => encodeStr kv.1 ++ '=' :: encodeStr kv.2)))

/-- Result of the host `new URL(...)` parser, restricted to the components
`normalizeUrl` reads: `protocol` keeps its trailing colon (`"https:"`),
`searchParams` is the decoded (key, value) pair list in document order, and
the fragment is never read because the reconstruction drops it. -/
structure ParsedUrl where
  protocol : String
  hostname : String
  pathname : String
  searchParams : List (String × String)
deriving DecidableEq

/-- Embedding of `normalizeUrl` (content.ts lines 250-280), parameterized by
the host URL parser: on parse failure the input is returned unchanged,
otherwise the URL is reconstructed from the normalized host, the normalized
path and the filtered query, with no fragment. -/
def normalizeUrl (parse : String → Option ParsedUrl) (url : String) : String :=
  match parse url with
  | none => url
  | some p =>
    let host := normalizeHost p.hostname
    let params := filterParams p.searchParams
    let path := normalizePath p.pathname
    let query := encodeQuery params
    p.protocol ++ "//" ++ host ++ path ++ (if query = "" then "" else "?" ++ query)

/-- Variant of `normalizeUrl` whose path step follows the claim's words
(strip exactly one trailing slash); used only to exhibit the divergence. -/
def normalizeUrlClaimC6 (parse : String → Option ParsedUrl) (url : String) : String :=
  match parse url with
  | none => url
  | some p =>
    let host := normalizeHost p.hostname
    let params := filterParams p.searchParams
    let path := normalizePathClaimC6 p.pathname
    let query := encodeQuery params
    p.protocol ++ "//" ++ host ++ path ++ (if query = "" then "" else "?" ++ query)

/-- Concrete parser fragment: the WHATWG parse of
`https://example.com/a//` (the URL parser preserves empty path segments, so
the pathname keeps both trailing slashes) and of `https://example.com/`. -/
def parseC6 : String → Option ParsedUrl := fun s =>
  if s = "https://example.com/a//" then
    some ⟨"https:", "example.com", "/a//", []⟩
  else if s = "https://example.com/" then
    some ⟨"https:", "example.com", "/", []⟩
  else none

/-- The loop of `deduplicateUrls` (content.ts lines 287-300), generalized
over the key function (the source uses `normalizeUrl`): `seen` is the set of
keys already encountered, modelled as a list queried by membership. -/
def dedupGo (key : String → String) (seen : List String) : List String → List String
  | [] => []
  | u :: rest =>
    if key u ∈ seen then dedupGo key seen rest
    else u :: dedupGo key (key u :: seen) rest

/-- Embedding of `deduplicateUrls`, parameterized by the host URL parser. -/
def deduplicateUrls (parse : String → Option ParsedUrl) (urls : List String) : List String :=
  dedupGo (normalizeUrl parse) [] urls

/-- Specification-side deduplication exactly as the claim states it: keep
the first URL of each distinct key in its original form, drop every later
URL whose key collides, order by first appearance. -/
def dedupSpec (key : String → String) : List String → List String
  | [] => []
  | u :: rest => u :: dedupSpec key (rest.filter (fun v => !(key v == key u)))
termination_by l => l.length
decreasing_by
  simp only [List.length_cons]
  exact Nat.lt_succ_of_le (List.length_filter_le _ _)

/-- Outcome of `fetchSinglePage` for one URL, as `fetchPages` consumes it:
each field is `none` for JS `null`. -/
structure SingleResult where
  content : Option String
  title : Option String
  error : Option String
deriving DecidableEq

/-- JS truthiness of a `string | null` value: truthy iff non-null and
non-empty. -/
def truthy : Option String → Bool
  | none => false
  | some s => !(s == "")

/-- One iteration of the result-organizing loop of `fetchPages` (fetch.ts
lines 129-139): an outcome with a truthy error goes to `errors`; otherwise
truthy content and truthy title go to `contents` and `titles`. -/
def fetchStep
    (acc : List (String × String) × List (String × String) × List (String × String))
    (ur : String × SingleResult) :
    List (String × String) × List (String × String) × List (String × String) :=
  if truthy ur.2.error then
    (acc.1, acc.2.1, setRec ur.1 (ur.2.error.getD "") acc.2.2)
  else
    ((if truthy ur.2.content then setRec ur.1 (ur.2.content.getD "") acc.1 else acc.1),
      (if truthy ur.2.title then setRec ur.1 (ur.2.title.getD "") acc.2.1 else acc.2.1),
      acc.2.2)

/-- Aggregate result of `fetchPages` (fetch.ts lines 22-28), with the
string-keyed objects as association lists. -/
structure FetchResult where
  contents : List (String × String)
  titles : List (String × String)
  errors : List (String × String)
  successCount : Nat
  errorCount : Nat
deriving DecidableEq

/-- Embedding of `fetchPages` (fetch.ts lines 104-148): the i-th element of
`results` is the settled outcome of fetching the i-th URL; the maps are
filled in input order and the counts are the maps' key counts (the keys are
distinct by construction, so the list lengths are the JS
`Object.keys(...).length`).  The source's special case for an empty `urls`
returns the same all-empty structure as the general path. -/
def fetchPages (urls : List String) (results : List SingleResult) : FetchResult :=
  let maps := (urls.zip results).foldl fetchStep ([], [], [])
  ⟨maps.1, maps.2.1, maps.2.2, maps.1.length, maps.2.2.length⟩

/-- Result of parsing an HTML document as `extractTitle` reads it: the
`textContent` of the first `title` element and of the first `h1` element
(`none` when the element is absent), and for the `og:title` meta element the
presence of the element together with its nullable `content` attribute. -/
structure ParsedDoc where
  titleText : Option String
  h1Text : Option String
  ogContent : Option (Option String)
deriving DecidableEq

/-- JS `s.trim()` on strings. -/
def jsTrimS (s : String) : String := String.mk (jsTrim s.data)

/-- One candidate of `extractTitle`: trim it, and treat empty-after-trim (or
absent) as no candidate — the truthiness test `candidate?.trim()`. -/
def candTrim : Option String → Option String
  | none => none
  | some s => if jsTrimS s = "" then none else some (jsTrimS s)

/-- Embedding of `extractTitle` (content.ts lines 178-205): `doc` is `none`
when `parseHTML` throws (the catch returns null); otherwise the three
candidates are tried in order. -/
def extractTitle (doc : Option ParsedDoc) : Option String :=
  match doc with
  | none => none
  | some d =>
    match candTrim d.titleText with
    | some t => some t
    | none =>
      match candTrim d.h1Text with
      | some t => some t
      | none =>
        match d.ogContent with
        | none => none
        | some c => candTrim c

/-- Delay between sequential queries in milliseconds (search section of the
server source). -/
def INTER_QUERY_DELAY_MS : Nat := 400

/-- Observable actions of the `multiSearch` query loop, in the order the
single-threaded await sequence performs them: start of a delay of the given
length, start of the HTTP search request for the i-th query, and settlement
of that request. -/
inductive SearchEvent where
  | delayEv (ms : Nat)
  | searchStart (i : Nat) (query : String)
  | searchEnd (i : Nat)
deriving DecidableEq

/-- Trace denotation of the query loop of `multiSearch` starting at index
`i`: each iteration awaits the fixed delay when `i > 0`, then awaits
`searchSingleQuery`, so its start and its settlement both precede the next
iteration. -/
def searchLoopTrace (i : Nat) : List String → List SearchEvent
  | [] => []
  | q :: rest =>
    (if 0 < i then [SearchEvent.delayEv INTER_QUERY_DELAY_MS] else []) ++
      SearchEvent.searchStart i q :: SearchEvent.searchEnd i ::
        searchLoopTrace (i + 1) rest

/-- Trace of `multiSearch queries`. -/
def multiSearchTrace (queries : List String) : List SearchEvent :=
  searchLoopTrace 0 queries

/-- Whether an event is a delay. -/
def isDelay : SearchEvent → Bool
  | SearchEvent.delayEv _ => true
  | _ => false

/-- One search result as `searchSingleQuery` returns it. -/
structure RawResult where
  url : String
  title : String
  snippet : String
deriving DecidableEq

/-- One iteration of the metadata-collection loop of `multiSearch`: skip
a falsy (empty) URL, record snippet and title at the URL's first occurrence
only, and push the URL onto the flat list.  (The per-query `queryResults`
lists are not modelled; no claim mentions them.) -/
def collectStep
    (acc : List (String × String) × List (String × String) × List String)
    (r : RawResult) :
    List (String × String) × List (String × String) × List String :=
  if r.url = "" then acc
  else if (acc.1.map Prod.fst).contains r.url then (acc.1, acc.2.1, acc.2.2 ++ [r.url])
  else (acc.1 ++ [(r.url, r.snippet)], acc.2.1 ++ [(r.url, r.title)], acc.2.2 ++ [r.url])

/-- The collected (urlToSnippet, urlToTitle, allUrls) of `multiSearch` over
the per-query result lists, flattened in query order then per-query result
order — the same traversal order as the source's nested loops. -/
def collectMaps (allResults : List (List RawResult)) :
    List (String × String) × List (String × String) × List String :=
  (allResults.flatMap id).foldl collectStep ([], [], [])

/-- Aggregation phase of `multiSearch`: deduplicate the flat URL list and
rebuild the returned `snippets` and `titles` objects from the surviving
URLs, defaulting a missing or falsy recorded value to the empty string
(JS `urlToSnippet[url] || ""`); `Object.fromEntries` over the mapped list is
the `setRec` fold. -/
def multiSearchAgg (parse : String → Option ParsedUrl)
    (allResults : List (List RawResult)) :
    List String × List (String × String) × List (String × String) :=
  let maps := collectMaps allResults
  let uniqueUrls := dedupGo (normalizeUrl parse) [] maps.2.2
  (uniqueUrls,
    uniqueUrls.foldl (fun m u => setRec u ((List.lookup u maps.1).getD "") m) [],
    uniqueUrls.foldl (fun m u => setRec u ((List.lookup u maps.2.1).getD "") m) [])

/-- Absence of two adjacent spaces, as a chain property (used to state the
whitespace invariant of C3). -/
def noDS (l : List Char) : Prop := List.Chain' (fun a b => ¬(a = ' ' ∧ b = ' ')) l

/-!
Theorems.  One theorem (plus counterexample/witness where required) per
claim C1..C10, preceded by the helper lemmas they share.
-/

/-- C1, counterexample to the claim as stated.  At `text = "aaaaaaa\n\nbcd"`
and `maxChars = 10` the paragraph break sits at index 7, exactly 70% of
`maxChars` (and `10 * 0.7` is exactly `7.0` in binary64, see the header).
The claim's `≥` gate accepts it and cuts at the paragraph, but the source's
strict `>` gate rejects it and falls through to the hard cut. -/
theorem truncateAtBoundary_claimC1_cex :
    truncateAtBoundary "aaaaaaa\n\nbcd".data 10 =
        "aaaaaaa\n\nb...\n\n[Content truncated...]".data ∧
      truncateClaimC1 "aaaaaaa\n\nbcd".data 10 =
        "aaaaaaa\n\n[Content truncated...]".data ∧
      truncateAtBoundary "aaaaaaa\n\nbcd".data 10 ≠
        truncateClaimC1 "aaaaaaa\n\nbcd".data 10 := by
  decide

/-- C1, amended: `truncateAtBoundary` returns text of length at most
`maxChars` unchanged with no marker, and otherwise takes the first of the
four tiers whose gate holds, where the paragraph and sentence gates demand
a position strictly greater than the binary64 product `maxChars * 0.7` and
the word gate strictly greater than `maxChars * 0.8`, both as JS computes
them — within one ulp of exact 70% / 80% of `maxChars`, on either side of
it depending on `maxChars`. -/
theorem truncateAtBoundary_eq_float_tiers (text : List Char) (maxChars : Nat) :
    truncateAtBoundary text maxChars = truncateClaimAmended text maxChars := by
  simp only [truncateAtBoundary, truncateClaimAmended, firstTier]

/-- Fidelity checks of the embedded binary64 gate at the two sides of the
rounding.  `10 * fl(0.7)` is exactly `7.0`, so at `maxChars = 10` index 7
(exactly 70%) fails the strict gate; `90 * fl(0.7)` is
`8866461766385663 / 2^47`, one ulp below `63.0`, so at `maxChars = 90`
index 63 (exactly 70%) passes it, and `truncateAtBoundary` takes the
paragraph tier there where the exact-rational strict gate would fall
through to the hard cut. -/
theorem gtFl_rounding_checks :
    gtFl 7 FL07 10 = false ∧
      gtFl 63 FL07 90 = true ∧
      flProd FL07 90 = (8866461766385663, 6) ∧
      truncateAtBoundary
          (List.replicate 63 'a' ++ '\n' :: '\n' :: List.replicate 26 'b') 90 =
        List.replicate 63 'a' ++ paraMarker := by
  decide

/-!
Whitespace lemmas for C3: `cleanWhitespace` output never has two adjacent
spaces; `truncateAtBoundary` preserves that and bounds the length.
-/

theorem jsTrim_infix_self (l : List Char) : jsTrim l <:+: l := by
  unfold jsTrim
  have h1 : l.dropWhile isJsSpace <:+ l := List.dropWhile_suffix _
  have h2 : (l.dropWhile isJsSpace).reverse.dropWhile isJsSpace <:+ (l.dropWhile isJsSpace).reverse :=
    List.dropWhile_suffix _
  have h3 := List.reverse_prefix.mpr h2
  rw [List.reverse_reverse] at h3
  exact h3.isInfix.trans h1.isInfix

theorem jsTrim_length_le (l : List Char) : (jsTrim l).length ≤ l.length :=
  (jsTrim_infix_self l).length_le

theorem dropWhile_head_false (p : Char → Bool) (l : List Char) :
    ∀ a, (l.dropWhile p).head? = some a → p a = false := by
  induction l with
  | nil => simp
  | cons x t ih =>
    intro a ha
    by_cases hx : p x
    · rw [List.dropWhile_cons_of_pos hx] at ha
      exact ih a ha
    · rw [List.dropWhile_cons_of_neg hx] at ha
      simp at ha
      subst ha
      simpa using hx

theorem jsTrim_getLast?_false (l : List Char) :
    ∀ c, (jsTrim l).getLast? = some c → isJsSpace c = false := by
  intro c hc
  unfold jsTrim at hc
  rw [List.getLast?_reverse] at hc
  exact dropWhile_head_false _ _ c hc

theorem collapseSpGo_true_head (l : List Char) :
    ∀ y, (collapseSpGo true l).head? = some y → y ≠ ' ' := by
  induction l with
  | nil => simp [collapseSpGo]
  | cons x rest ih =>
    intro y hy
    rw [collapseSpGo] at hy
    by_cases hx : x = ' '
    · rw [if_pos hx] at hy
      exact ih y (by simpa using hy)
    · rw [if_neg hx] at hy
      rw [List.head?_cons, Option.some_inj] at hy
      subst hy
      exact hx

theorem collapseSpaces_head? (l : List Char) : (collapseSpaces l).head? = l.head? := by
  cases l with
  | nil => rfl
  | cons x rest =>
    rw [collapseSpaces, collapseSpGo]
    by_cases hx : x = ' '
    · rw [if_pos hx, hx]
      rfl
    · rw [if_neg hx]
      rfl

theorem collapseSpGo_noDS (inRun : Bool) (l : List Char) : noDS (collapseSpGo inRun l) := by
  induction l generalizing inRun with
  | nil =>
    show noDS []
    simp [noDS]
  | cons x rest ih =>
    rw [collapseSpGo]
    by_cases hx : x = ' '
    · rw [if_pos hx]
      cases inRun with
      | true => exact ih true
      | false =>
        show noDS (' ' :: collapseSpGo true rest)
        refine List.Chain'.cons' (ih true) ?_
        intro y hy hcon
        exact collapseSpGo_true_head rest y hy hcon.2
    · rw [if_neg hx]
      refine List.Chain'.cons' (ih false) ?_
      intro y hy hcon
      exact hx hcon.1

theorem collapseSpaces_noDS (l : List Char) : noDS (collapseSpaces l) :=
  collapseSpGo_noDS false l

theorem splitNl_ne_nil (l : List Char) : splitNl l ≠ [] := by
  cases l with
  | nil => simp [splitNl]
  | cons x rest =>
    rw [splitNl]
    split
    · simp
    · split <;> simp

theorem splitNl_head_prefix (l : List Char) :
    ∀ p ps, splitNl l = p :: ps → p <+: l := by
  induction l with
  | nil =>
    intro p ps h
    simp [splitNl] at h
    simp [h.1]
  | cons x rest ih =>
    intro p ps h
    rw [splitNl] at h
    by_cases hx : x = '\n'
    · rw [if_pos hx] at h
      have : p = [] := (List.cons_eq_cons.mp h).1.symm
      simp [this]
    · rw [if_neg hx] at h
      rcases hsp : splitNl rest with _ | ⟨q, qs⟩
      · exact absurd hsp (splitNl_ne_nil rest)
      · rw [hsp] at h
        have hq := ih q qs hsp
        have hpq : p = x :: q := (List.cons_eq_cons.mp h).1.symm
        subst hpq
        exact List.cons_prefix_cons.mpr ⟨rfl, hq⟩

theorem splitNl_mem_infix_self (l : List Char) :
    ∀ part ∈ splitNl l, part <:+: l := by
  induction l with
  | nil =>
    intro part hp
    simp [splitNl] at hp
    simp [hp]
  | cons x rest ih =>
    intro part hp
    rw [splitNl] at hp
    by_cases hx : x = '\n'
    · rw [if_pos hx] at hp
      rcases List.mem_cons.mp hp with h | h
      · simp [h]
      · exact (ih part h).trans (List.infix_cons (List.infix_refl rest))
    · rw [if_neg hx] at hp
      rcases hsp : splitNl rest with _ | ⟨p, ps⟩
      · exact absurd hsp (splitNl_ne_nil rest)
      · rw [hsp] at hp
        rcases List.mem_cons.mp hp with h | h
        · subst h
          have hpre : x :: p <+: x :: rest :=
            List.cons_prefix_cons.mpr ⟨rfl, splitNl_head_prefix rest p ps hsp⟩
          exact hpre.isInfix
        · have := ih part (by rw [hsp]; exact List.mem_cons_of_mem p h)
          exact this.trans (List.infix_cons (List.infix_refl rest))

theorem joinSep_nl_noDS (parts : List (List Char)) (h : ∀ p ∈ parts, noDS p) :
    noDS (joinSep '\n' parts) := by
  induction parts with
  | nil => simp [joinSep, noDS]
  | cons p ps ih =>
    cases ps with
    | nil =>
      simpa [joinSep] using h p (by simp)
    | cons q qs =>
      rw [joinSep]
      have hp : noDS p := h p (by simp)
      have hrest : noDS (joinSep '\n' (q :: qs)) :=
        ih (fun r hr => h r (List.mem_cons_of_mem p hr))
      refine List.Chain'.append hp (List.Chain'.cons' hrest ?_) ?_
      · intro y _ hcon
        exact absurd hcon.1 (by decide)
      · intro x _ y hy hcon
        rw [List.head?_cons] at hy
        have : y = '\n' := by simpa using hy.symm
        rw [this] at hcon
        exact absurd hcon.2 (by decide)

theorem hasDoubleSpace_eq_false_iff (l : List Char) :
    hasDoubleSpace l = false ↔ noDS l := by
  induction l with
  | nil => simp [hasDoubleSpace, noDS]
  | cons x t ih =>
    cases t with
    | nil => simp [hasDoubleSpace, noDS]
    | cons y t' =>
      rw [hasDoubleSpace, noDS, List.chain'_cons]
      rw [noDS] at ih
      constructor
      · intro hf
        simp only [Bool.or_eq_false_iff, Bool.and_eq_false_iff] at hf
        refine ⟨?_, ih.mp hf.2⟩
        intro hcon
        rcases hf.1 with h | h
        · rw [hcon.1] at h
          simp at h
        · rw [hcon.2] at h
          simp at h
      · intro ⟨hr, hc⟩
        simp only [Bool.or_eq_false_iff, Bool.and_eq_false_iff]
        refine ⟨?_, ih.mpr hc⟩
        by_cases hx : x = ' '
        · right
          by_cases hy : y = ' '
          · exact absurd ⟨hx, hy⟩ hr
          · simpa using hy
        · left
          simpa using hx

theorem noDS_mono {l l' : List Char} (h : noDS l) (hi : l' <:+: l) : noDS l' :=
  List.Chain'.infix h hi

theorem cleanWhitespace_noDS (l : List Char) : noDS (cleanWhitespace l) := by
  unfold cleanWhitespace
  have base := collapseSpaces_noDS (collapseNewlines l)
  have parts : ∀ p ∈ (splitNl (collapseSpaces (collapseNewlines l))).map jsTrim, noDS p := by
    intro p hp
    rcases List.mem_map.mp hp with ⟨q, hq, rfl⟩
    exact noDS_mono (noDS_mono base (splitNl_mem_infix_self _ q hq)) (jsTrim_infix_self q)
  exact noDS_mono (joinSep_nl_noDS _ parts) (jsTrim_infix_self _)

theorem noDS_marker_append {u : List Char} (hu : noDS u) (hlast : ∀ c, u.getLast? = some c → isJsSpace c = false)
    (m : List Char) (hm : noDS m) : noDS (u ++ m) := by
  refine List.Chain'.append hu hm ?_
  intro x hx y _ hcon
  have := hlast x hx
  rw [hcon.1] at this
  simp [isJsSpace] at this

theorem truncateAtBoundary_noDS (text : List Char) (maxChars : Nat) (h : noDS text) :
    noDS (truncateAtBoundary text maxChars) := by
  have hmarker1 : noDS paraMarker := (hasDoubleSpace_eq_false_iff _).mp (by decide)
  have hmarker2 : noDS hardMarker := (hasDoubleSpace_eq_false_iff _).mp (by decide)
  have htrunc : noDS (text.take maxChars) := List.Chain'.take h maxChars
  simp only [truncateAtBoundary]
  split
  · exact h
  · split
    · exact noDS_marker_append
        (noDS_mono (noDS_mono htrunc ((List.take_prefix _ _).isInfix)) (jsTrim_infix_self _))
        (jsTrim_getLast?_false _) _ hmarker1
    · split
      · exact noDS_marker_append
          (noDS_mono (noDS_mono htrunc ((List.take_prefix _ _).isInfix)) (jsTrim_infix_self _))
          (jsTrim_getLast?_false _) _ hmarker1
      · split
        · exact noDS_marker_append
            (noDS_mono (noDS_mono htrunc ((List.take_prefix _ _).isInfix)) (jsTrim_infix_self _))
            (jsTrim_getLast?_false _) _ hmarker2
        · exact noDS_marker_append (noDS_mono htrunc (jsTrim_infix_self _))
            (jsTrim_getLast?_false _) _ hmarker2

theorem truncateAtBoundary_length_le (text : List Char) (maxChars : Nat) :
    (truncateAtBoundary text maxChars).length ≤ maxChars + 27 := by
  have hpara : paraMarker.length = 24 := by decide
  have hhard : hardMarker.length = 27 := by decide
  have htake : ∀ k, ((text.take maxChars).take k).length ≤ maxChars := by
    intro k
    calc ((text.take maxChars).take k).length ≤ (text.take maxChars).length :=
          (List.take_sublist _ _).length_le
      _ ≤ maxChars := List.length_take_le _ _
  have htrim : ∀ k, (jsTrim ((text.take maxChars).take k)).length ≤ maxChars :=
    fun k => le_trans (jsTrim_length_le _) (htake k)
  simp only [truncateAtBoundary]
  split
  · rename_i hle
    omega
  · split
    · rw [List.length_append, hpara]
      exact Nat.add_le_add (htrim _) (by omega)
    · split
      · rw [List.length_append, hpara]
        exact Nat.add_le_add (htrim _) (by omega)
      · split
        · rw [List.length_append, hhard]
          exact Nat.add_le_add (htrim _) (le_refl 27)
        · rw [List.length_append, hhard]
          exact Nat.add_le_add
            (le_trans (jsTrim_length_le _) (List.length_take_le _ _)) (le_refl 27)

/-- C3, counterexample to the claim as stated: extracted text
`"a\n \n \nb"` has no 3-newline run and no double space, but line-trimming
(which runs after the newline collapse) empties the two space-only lines, so
`extractContent` returns `"a\n\n\nb"` — a run of three newlines. -/
theorem extractPipeline_c3_cex :
    extractPipeline "a\n \n \nb".data 15000 = "a\n\n\nb".data ∧
      hasTripleNewline (extractPipeline "a\n \n \nb".data 15000) = true := by
  decide

/-- C3, amended: for every extracted text and every `maxChars`, the text
returned by `extractContent` never contains two adjacent spaces, and its
length never exceeds `maxChars + 27` (27 is the length of the longest
truncation marker, `"...\n\n[Content truncated...]"`).  Runs of three or
more newlines, however, can occur (see the counterexample). -/
theorem extractPipeline_c3_amended (extracted : List Char) (maxChars : Nat) :
    hasDoubleSpace (extractPipeline extracted maxChars) = false ∧
      (extractPipeline extracted maxChars).length ≤ maxChars + 27 := by
  constructor
  · rw [hasDoubleSpace_eq_false_iff]
    simp only [extractPipeline]
    split
    · exact truncateAtBoundary_noDS _ _ (cleanWhitespace_noDS extracted)
    · exact cleanWhitespace_noDS extracted
  · simp only [extractPipeline]
    split
    · exact truncateAtBoundary_length_le _ _
    · rename_i hgt
      omega

/-!
Parameter-filtering lemmas for C2: the `URLSearchParams.set` fold equals the
first-position/last-value collapse of the tracking-filtered pair list.
-/

theorem lastValD_append_eq (k : String) (w : String) (l : List (String × String)) :
    ∀ v, lastValD k v (l ++ [(k, w)]) = w := by
  induction l with
  | nil =>
    intro v
    simp [lastValD]
  | cons a l' ih =>
    intro v
    rcases a with ⟨k', v'⟩
    rw [List.cons_append, lastValD]
    split <;> exact ih _

theorem lastValD_append_ne (k k' : String) (w : String) (hne : k' ≠ k)
    (l : List (String × String)) : ∀ v, lastValD k v (l ++ [(k', w)]) = lastValD k v l := by
  induction l with
  | nil =>
    intro v
    simp [lastValD, hne]
  | cons a l' ih =>
    intro v
    rcases a with ⟨k₁, v₁⟩
    rw [List.cons_append, lastValD, lastValD]
    split <;> exact ih _

theorem collapseSpec_snoc (qs : List (String × String)) (k v : String) :
    collapseSpec (qs ++ [(k, v)]) = setRec k v (collapseSpec qs) := by
  suffices H : ∀ n (qs : List (String × String)), qs.length = n → ∀ k v,
      collapseSpec (qs ++ [(k, v)]) = setRec k v (collapseSpec qs) from
    H qs.length qs rfl k v
  intro n
  induction n using Nat.strong_induction_on with
  | _ n ih =>
    intro qs hn k v
    cases qs with
    | nil =>
      simp [collapseSpec, lastValD, setRec]
    | cons a rest =>
      rcases a with ⟨k₁, v₁⟩
      rw [List.cons_append, collapseSpec, collapseSpec, setRec]
      by_cases hk : k₁ = k
      · subst hk
        rw [if_pos rfl]
        rw [lastValD_append_eq]
        congr 1
        rw [List.filter_append]
        simp
      · rw [if_neg hk]
        rw [lastValD_append_ne k₁ k v (fun h => hk h.symm) rest]
        congr 1
        rw [List.filter_append]
        have : (([(k, v)]).filter (fun p => p.1 ≠ k₁)) = [(k, v)] := by
          simp
          exact fun h => hk h.symm
        rw [this]
        have hlen : (rest.filter (fun p => p.1 ≠ k₁)).length < n := by
          subst hn
          simp only [List.length_cons]
          exact Nat.lt_succ_of_le (List.length_filter_le _ _)
        exact ih _ hlen _ rfl k v

theorem foldl_setRec_eq_collapseSpec (qs : List (String × String)) :
    qs.foldl (fun acc kv => setRec kv.1 kv.2 acc) [] = collapseSpec qs := by
  induction qs using List.reverseRecOn with
  | nil => simp [collapseSpec]
  | append_singleton qs kv ih =>
    rw [List.foldl_append, List.foldl_cons, List.foldl_nil, ih, ← collapseSpec_snoc]

theorem filterParams_eq_filtered_foldl (ps : List (String × String)) :
    ∀ acc, ps.foldl (fun acc kv => if isTracking kv.1 then acc else setRec kv.1 kv.2 acc) acc =
      (ps.filter (fun kv => !(isTracking kv.1))).foldl (fun acc kv => setRec kv.1 kv.2 acc) acc := by
  induction ps with
  | nil =>
    intro acc
    rfl
  | cons kv ps' ih =>
    intro acc
    rw [List.foldl_cons, List.filter_cons]
    by_cases hkv : isTracking kv.1
    · rw [if_pos hkv]
      have : (!isTracking kv.1) = false := by simp [hkv]
      rw [this, if_neg (by simp)]
      exact ih acc
    · rw [if_neg hkv]
      have : (!isTracking kv.1) = true := by simp [hkv]
      rw [this, if_pos rfl, List.foldl_cons]
      exact ih _

theorem collapseSpec_fst_mem (qs : List (String × String)) :
    ∀ kv ∈ collapseSpec qs, kv.1 ∈ qs.map Prod.fst := by
  suffices H : ∀ n (qs : List (String × String)), qs.length = n →
      ∀ kv ∈ collapseSpec qs, kv.1 ∈ qs.map Prod.fst from H qs.length qs rfl
  intro n
  induction n using Nat.strong_induction_on with
  | _ n ih =>
    intro qs hn kv hkv
    cases qs with
    | nil => simp [collapseSpec] at hkv
    | cons a rest =>
      rcases a with ⟨k₁, v₁⟩
      rw [collapseSpec] at hkv
      rcases List.mem_cons.mp hkv with h | h
      · rw [h]
        simp
      · have hlen : (rest.filter (fun p => p.1 ≠ k₁)).length < n := by
          subst hn
          simp only [List.length_cons]
          exact Nat.lt_succ_of_le (List.length_filter_le _ _)
        have := ih _ hlen _ rfl kv h
        rcases List.mem_map.mp this with ⟨kv', hkv', hfst⟩
        have : kv' ∈ rest := List.mem_of_mem_filter hkv'
        rw [List.map_cons]
        exact List.mem_cons_of_mem _ (hfst ▸ List.mem_map_of_mem Prod.fst this)

/-- C2, counterexample to the claim as stated.  The source filters
parameters with `URLSearchParams.set`, which collapses repeated keys: on the
decoded query `utm_source=x&a=1&a=2` the code keeps a single `a=2`, while
the claim (repeated occurrences preserved in order with values unmodified)
demands `a=1&a=2`. -/
theorem filterParams_c2_cex :
    filterParams [("utm_source", "x"), ("a", "1"), ("a", "2")] = [("a", "2")] ∧
      filterParamsClaimC2 [("utm_source", "x"), ("a", "1"), ("a", "2")] =
        [("a", "1"), ("a", "2")] ∧
      filterParams [("utm_source", "x"), ("a", "1"), ("a", "2")] ≠
        filterParamsClaimC2 [("utm_source", "x"), ("a", "1"), ("a", "2")] := by
  decide

/-- C2, amended: `normalizeUrl` removes exactly the pairs whose lowercased
name is in the tracking set; among the surviving pairs each distinct name
(exact, case-sensitive) keeps exactly one entry, placed at its first
surviving occurrence and carrying the value of its last surviving
occurrence; distinct names keep their relative order and case. -/
theorem filterParams_c2_amended (ps : List (String × String)) :
    filterParams ps = collapseSpec (filterParamsClaimC2 ps) ∧
      ∀ kv ∈ filterParams ps, isTracking kv.1 = false := by
  have h1 : filterParams ps = collapseSpec (filterParamsClaimC2 ps) := by
    unfold filterParams filterParamsClaimC2
    rw [filterParams_eq_filtered_foldl ps [], foldl_setRec_eq_collapseSpec]
  refine ⟨h1, ?_⟩
  intro kv hkv
  rw [h1] at hkv
  have hmem := collapseSpec_fst_mem _ kv hkv
  rcases List.mem_map.mp hmem with ⟨kv', hkv', hfst⟩
  have hnt := (List.mem_filter.mp hkv').2
  rw [← hfst]
  simpa using hnt

/-!
Deduplication refinement for C4.
-/

theorem dedupGo_eq_dedupSpec (key : String → String) (urls : List String) :
    ∀ seen, dedupGo key seen urls =
      dedupSpec key (urls.filter (fun u => !(decide (key u ∈ seen)))) := by
  induction urls with
  | nil =>
    intro seen
    simp [dedupGo, dedupSpec]
  | cons u rest ih =>
    intro seen
    rw [dedupGo, List.filter_cons]
    by_cases hu : key u ∈ seen
    · rw [if_pos hu]
      have h1 : (!(decide (key u ∈ seen))) = false := by simp [hu]
      rw [h1, if_neg (by simp)]
      exact ih seen
    · rw [if_neg hu]
      have h1 : (!(decide (key u ∈ seen))) = true := by simp [hu]
      rw [h1, if_pos rfl, dedupSpec]
      congr 1
      rw [ih (key u :: seen), List.filter_filter]
      congr 1
      apply List.filter_congr
      intro v _
      by_cases hv : key v = key u
      · simp [hv]
      · simp [hv, List.mem_cons]

/-- C4: `deduplicateUrls` keeps, for each distinct `normalizeUrl` key,
exactly the first URL with that key, in its original non-normalized form;
later colliding URLs are dropped and the output order is the order of first
appearance of each distinct key (the recursive specification `dedupSpec`). -/
theorem deduplicateUrls_c4 (parse : String → Option ParsedUrl) (urls : List String) :
    deduplicateUrls parse urls = dedupSpec (normalizeUrl parse) urls := by
  unfold deduplicateUrls
  rw [dedupGo_eq_dedupSpec]
  congr 1
  rw [List.filter_eq_self]
  intro a _
  simp

/-!
Trailing-slash handling for C6 and parse-failure totality for C7.
-/

theorem dropSlashIter_reverse (r : List Char) :
    dropSlashIter r.reverse = (r.dropWhile (fun c => c = '/')).reverse := by
  induction r with
  | nil =>
    rw [dropSlashIter]
    simp
  | cons c r' ih =>
    rw [List.reverse_cons, dropSlashIter]
    by_cases hc : c = '/'
    · subst hc
      rw [dif_pos (List.getLast?_concat _), List.dropLast_concat, ih]
      rw [List.dropWhile_cons_of_pos (by simp)]
    · rw [dif_neg (by rw [List.getLast?_concat]; simpa using hc)]
      rw [List.dropWhile_cons_of_neg (by simpa using hc), List.reverse_cons]

theorem dropSlashIter_eq_dropTrailing (l : List Char) :
    dropSlashIter l = (l.reverse.dropWhile (fun c => c = '/')).reverse := by
  have := dropSlashIter_reverse l.reverse
  rwa [List.reverse_reverse] at this

/-- C6, counterexample to the claim as stated.  The source strips the whole
trailing run of slashes (`replace(/\/+$/, "")`), not exactly one: on
`https://example.com/a//` (pathname `/a//`) the code returns path `/a`,
while the claim demands `/a/`. -/
theorem normalizeUrl_c6_cex :
    normalizeUrl parseC6 "https://example.com/a//" = "https://example.com/a" ∧
      normalizeUrlClaimC6 parseC6 "https://example.com/a//" = "https://example.com/a/" ∧
      normalizeUrl parseC6 "https://example.com/a//" ≠
        normalizeUrlClaimC6 parseC6 "https://example.com/a//" := by
  decide

/-- C6, amended: for every parsed path, `normalizeUrl` strips the entire
maximal run of trailing slashes unless the path is exactly the root `/`
(`dropSlashIter` iterates single-slash stripping to a fixpoint), and the
root URL `https://example.com/` is preserved unchanged. -/
theorem normalizePath_c6_amended :
    (∀ p : String, normalizePath p =
        if p = "/" then p else String.mk (dropSlashIter p.data)) ∧
      normalizeUrl parseC6 "https://example.com/" = "https://example.com/" := by
  constructor
  · intro p
    unfold normalizePath
    by_cases hroot : p = "/"
    · rw [if_pos hroot, if_pos hroot]
    · rw [if_neg hroot, if_neg hroot]
      by_cases hlast : p.data.getLast? = some '/'
      · rw [if_pos hlast]
        unfold dropTrailingSlashes
        rw [dropSlashIter_eq_dropTrailing]
      · rw [if_neg hlast]
        rw [dropSlashIter, dif_neg hlast]
  · decide

/-- C7: `normalizeUrl` is total; on parse failure it returns the input
string unchanged and raises nothing, so two unparseable URLs share a
deduplication key exactly when they are the same string — every unparseable
URL is its own equivalence class. -/
theorem normalizeUrl_c7_parse_failure :
    (∀ (parse : String → Option ParsedUrl) (url : String),
        parse url = none → normalizeUrl parse url = url) ∧
      (∀ (parse : String → Option ParsedUrl) (u v : String),
        parse u = none → parse v = none →
          (normalizeUrl parse u = normalizeUrl parse v ↔ u = v)) := by
  constructor
  · intro parse url h
    unfold normalizeUrl
    rw [h]
  · intro parse u v hu hv
    unfold normalizeUrl
    rw [hu, hv]

/-!
Title extraction priority for C8.
-/

theorem candTrim_ne_empty (o : Option String) : ∀ t, candTrim o = some t → t ≠ "" := by
  cases o with
  | none => simp [candTrim]
  | some s =>
    intro t ht
    simp only [candTrim] at ht
    by_cases hs : jsTrimS s = ""
    · rw [if_pos hs] at ht
      exact absurd ht (by simp)
    · rw [if_neg hs] at ht
      rw [Option.some_inj] at ht
      rw [← ht]
      exact hs

/-- C8: `extractTitle` tries the three candidates in strict priority order —
title element text, first h1 text, og:title content attribute — stopping at
the first whose trimmed form is non-empty; an empty-after-trim candidate
falls through; it returns null when parsing fails or all three are absent or
empty; and a returned title is never the empty string.  The last four
conjuncts are the specification's concrete examples. -/
theorem extractTitle_c8 (d : ParsedDoc) :
    (∀ t, candTrim d.titleText = some t → extractTitle (some d) = some t) ∧
      (candTrim d.titleText = none →
        ∀ t, candTrim d.h1Text = some t → extractTitle (some d) = some t) ∧
      (candTrim d.titleText = none → candTrim d.h1Text = none →
        extractTitle (some d) = Option.bind d.ogContent candTrim) ∧
      extractTitle none = none ∧
      (∀ t, extractTitle (some d) = some t → t ≠ "") ∧
      extractTitle (some ⟨some "T", some "H", none⟩) = some "T" ∧
      extractTitle (some ⟨none, some "H", none⟩) = some "H" ∧
      extractTitle (some ⟨none, none, some (some "O")⟩) = some "O" ∧
      extractTitle (some ⟨none, none, none⟩) = none := by
  refine ⟨?_, ?_, ?_, rfl, ?_, by decide, by decide, by decide, by decide⟩
  · intro t ht
    simp only [extractTitle, ht]
  · intro h1 t ht
    simp only [extractTitle, h1, ht]
  · intro h1 h2
    simp only [extractTitle, h1, h2]
    cases hog : d.ogContent <;> simp
  · intro t ht
    simp only [extractTitle] at ht
    cases h1 : candTrim d.titleText with
    | some t1 =>
      rw [h1] at ht
      rw [Option.some_inj] at ht
      exact ht ▸ candTrim_ne_empty _ t1 h1
    | none =>
      rw [h1] at ht
      cases h2 : candTrim d.h1Text with
      | some t2 =>
        rw [h2] at ht
        rw [Option.some_inj] at ht
        exact ht ▸ candTrim_ne_empty _ t2 h2
      | none =>
        rw [h2] at ht
        cases hog : d.ogContent with
        | none =>
          rw [hog] at ht
          exact absurd ht (by simp)
        | some c =>
          rw [hog] at ht
          exact candTrim_ne_empty c t ht

/-!
Sequential query trace for C9.
-/

theorem searchLoopTrace_pos_cons (j : Nat) (hj : 0 < j) (q : String) (rest : List String) :
    searchLoopTrace j (q :: rest) =
      SearchEvent.delayEv 400 :: SearchEvent.searchStart j q ::
        SearchEvent.searchEnd j :: searchLoopTrace (j + 1) rest := by
  rw [searchLoopTrace, if_pos hj]
  rfl

theorem searchLoopTrace_zero_cons (q : String) (rest : List String) :
    searchLoopTrace 0 (q :: rest) =
      SearchEvent.searchStart 0 q :: SearchEvent.searchEnd 0 ::
        searchLoopTrace 1 rest := by
  rw [searchLoopTrace, if_neg (by omega)]
  rfl

theorem searchLoopTrace_pos_length (queries : List String) :
    ∀ j, 0 < j → (searchLoopTrace j queries).length = 3 * queries.length := by
  induction queries with
  | nil =>
    intro j _
    simp [searchLoopTrace]
  | cons q rest ih =>
    intro j hj
    rw [searchLoopTrace_pos_cons j hj]
    simp only [List.length_cons, ih (j + 1) (by omega), List.length_cons]
    ring

theorem searchLoopTrace_pos_countP (queries : List String) :
    ∀ j, 0 < j → (searchLoopTrace j queries).countP isDelay = queries.length := by
  induction queries with
  | nil =>
    intro j _
    simp [searchLoopTrace]
  | cons q rest ih =>
    intro j hj
    rw [searchLoopTrace_pos_cons j hj]
    rw [List.countP_cons, List.countP_cons, List.countP_cons, ih (j + 1) (by omega)]
    simp [isDelay]

theorem searchLoopTrace_pos_get (queries : List String) :
    ∀ j, 0 < j → ∀ i q, queries[i]? = some q →
      (searchLoopTrace j queries)[3 * i]? = some (SearchEvent.delayEv 400) ∧
        (searchLoopTrace j queries)[3 * i + 1]? = some (SearchEvent.searchStart (j + i) q) ∧
        (searchLoopTrace j queries)[3 * i + 2]? = some (SearchEvent.searchEnd (j + i)) := by
  induction queries with
  | nil =>
    intro j _ i q hq
    simp at hq
  | cons q0 rest ih =>
    intro j hj i q hq
    rw [searchLoopTrace_pos_cons j hj]
    cases i with
    | zero =>
      rw [List.getElem?_cons_zero] at hq
      rw [Option.some_inj] at hq
      subst hq
      refine ⟨rfl, ?_, ?_⟩ <;> simp
    | succ i' =>
      rw [List.getElem?_cons_succ] at hq
      have ⟨hd, hs, he⟩ := ih (j + 1) (by omega) i' q hq
      have hji : j + 1 + i' = j + (i' + 1) := by omega
      rw [hji] at hs he
      refine ⟨?_, ?_, ?_⟩
      · have h3 : 3 * (i' + 1) = 3 * i' + 1 + 1 + 1 := by ring
        rw [h3, List.getElem?_cons_succ, List.getElem?_cons_succ, List.getElem?_cons_succ]
        exact hd
      · have h3 : 3 * (i' + 1) + 1 = 3 * i' + 1 + 1 + 1 + 1 := by ring
        rw [h3, List.getElem?_cons_succ, List.getElem?_cons_succ, List.getElem?_cons_succ]
        exact hs
      · have h3 : 3 * (i' + 1) + 2 = 3 * i' + 2 + 1 + 1 + 1 := by ring
        rw [h3, List.getElem?_cons_succ, List.getElem?_cons_succ, List.getElem?_cons_succ]
        exact he

/-- C9: the query loop of `multiSearch` is strictly sequential in input
order.  In the await trace, the i-th query's request starts at position
`3 i` and settles at position `3 i + 1`; for every query after the first a
400 ms delay event sits at position `3 i - 1`, between the previous query's
settlement (position `3 i - 2`) and this query's start — so query `N+1` is
never issued before query `N` has completed and the delay has elapsed; no
delay precedes the first query (its start is the first event), and the trace
holds exactly `queries.length - 1` delay events in total. -/
theorem multiSearchTrace_c9 (queries : List String) (i : Nat) (q : String)
    (h : queries[i]? = some q) :
    (multiSearchTrace queries).length = 3 * queries.length - 1 ∧
      (multiSearchTrace queries)[3 * i]? = some (SearchEvent.searchStart i q) ∧
      (multiSearchTrace queries)[3 * i + 1]? = some (SearchEvent.searchEnd i) ∧
      (0 < i → (multiSearchTrace queries)[3 * i - 1]? = some (SearchEvent.delayEv 400)) ∧
      (multiSearchTrace queries).countP isDelay = queries.length - 1 := by
  cases queries with
  | nil => simp at h
  | cons q0 rest =>
    rw [multiSearchTrace, searchLoopTrace_zero_cons]
    have hlen : (searchLoopTrace 1 rest).length = 3 * rest.length :=
      searchLoopTrace_pos_length rest 1 (by omega)
    have hcnt : (searchLoopTrace 1 rest).countP isDelay = rest.length :=
      searchLoopTrace_pos_countP rest 1 (by omega)
    refine ⟨?_, ?_, ?_, ?_, ?_⟩
    · simp only [List.length_cons, hlen]
      omega
    · cases i with
      | zero =>
        rw [List.getElem?_cons_zero] at h
        rw [Option.some_inj] at h
        subst h
        simp
      | succ i' =>
        rw [List.getElem?_cons_succ] at h
        have ⟨hd, hs, he⟩ := searchLoopTrace_pos_get rest 1 (by omega) i' q h
        have h3 : 3 * (i' + 1) = 3 * i' + 1 + 1 + 1 := by ring
        rw [h3, List.getElem?_cons_succ, List.getElem?_cons_succ]
        rw [hs]
        congr 2
        omega
    · cases i with
      | zero =>
        simp
      | succ i' =>
        rw [List.getElem?_cons_succ] at h
        have ⟨hd, hs, he⟩ := searchLoopTrace_pos_get rest 1 (by omega) i' q h
        have h3 : 3 * (i' + 1) + 1 = 3 * i' + 2 + 1 + 1 := by ring
        rw [h3, List.getElem?_cons_succ, List.getElem?_cons_succ]
        rw [he]
        congr 2
        omega
    · intro hi
      cases i with
      | zero => omega
      | succ i' =>
        rw [List.getElem?_cons_succ] at h
        have ⟨hd, hs, he⟩ := searchLoopTrace_pos_get rest 1 (by omega) i' q h
        have h3 : 3 * (i' + 1) - 1 = 3 * i' + 1 + 1 := by ring_nf; omega
        rw [h3, List.getElem?_cons_succ, List.getElem?_cons_succ]
        exact hd
    · rw [List.countP_cons, List.countP_cons, hcnt]
      simp [isDelay]

/-- C9, witness: the theorem instantiated at the concrete query list
`["a", "b"]` and its second query. -/
theorem multiSearchTrace_c9_witness :
    (multiSearchTrace ["a", "b"]).length = 3 * (["a", "b"] : List String).length - 1 ∧
      (multiSearchTrace ["a", "b"])[3 * 1]? = some (SearchEvent.searchStart 1 "b") ∧
      (multiSearchTrace ["a", "b"])[3 * 1 + 1]? = some (SearchEvent.searchEnd 1) ∧
      (0 < 1 → (multiSearchTrace ["a", "b"])[3 * 1 - 1]? = some (SearchEvent.delayEv 400)) ∧
      (multiSearchTrace ["a", "b"]).countP isDelay = (["a", "b"] : List String).length - 1 :=
  multiSearchTrace_c9 ["a", "b"] 1 "b" rfl

/-!
Fetch aggregation for C5.
-/

theorem length_filter_split {α : Type} (p : α → Bool) (l : List α) :
    (l.filter p).length + (l.filter (fun a => !(p a))).length = l.length := by
  induction l with
  | nil => rfl
  | cons a l' ih =>
    rw [List.filter_cons, List.filter_cons]
    by_cases hp : p a = true
    · rw [if_pos hp, if_neg (by simp [hp])]
      simp only [List.length_cons]
      omega
    · rw [if_neg hp, if_pos (by simpa using hp)]
      simp only [List.length_cons]
      omega

theorem setRec_fresh (k v : String) (m : List (String × String))
    (h : k ∉ m.map Prod.fst) : setRec k v m = m ++ [(k, v)] := by
  induction m with
  | nil => rfl
  | cons a m' ih =>
    rcases a with ⟨k', v'⟩
    rw [setRec]
    rw [List.map_cons, List.mem_cons] at h
    push_neg at h
    rw [if_neg (fun hk => h.1 hk.symm)]
    rw [List.cons_append]
    congr 1
    exact ih h.2

theorem keys_unique {β : Type} (l : List (String × β))
    (h : (l.map Prod.fst).Nodup) :
    ∀ p ∈ l, ∀ q ∈ l, p.1 = q.1 → p = q := by
  induction l with
  | nil => simp
  | cons a l' ih =>
    rw [List.map_cons, List.nodup_cons] at h
    intro p hp q hq hpq
    rcases List.mem_cons.mp hp with hp1 | hp1 <;> rcases List.mem_cons.mp hq with hq1 | hq1
    · rw [hp1, hq1]
    · exfalso
      apply h.1
      have ha : a.1 = q.1 := by rw [← hp1]; exact hpq
      rw [ha]
      exact List.mem_map_of_mem Prod.fst hq1
    · exfalso
      apply h.1
      have ha : a.1 = p.1 := by rw [← hq1]; exact hpq.symm
      rw [ha]
      exact List.mem_map_of_mem Prod.fst hp1
    · exact ih h.2 p hp1 q hq1 hpq

theorem fetchFold_keys (pairs : List (String × SingleResult)) :
    ∀ cs ts es : List (String × String),
      (∀ p ∈ pairs, truthy p.2.error = true ∨ truthy p.2.content = true) →
      (∀ p ∈ pairs, p.1 ∉ cs.map Prod.fst ∧ p.1 ∉ es.map Prod.fst) →
      (pairs.map Prod.fst).Nodup →
      ((pairs.foldl fetchStep (cs, ts, es)).1.map Prod.fst =
          cs.map Prod.fst ++ (pairs.filter (fun p => !(truthy p.2.error))).map Prod.fst) ∧
        ((pairs.foldl fetchStep (cs, ts, es)).2.2.map Prod.fst =
          es.map Prod.fst ++ (pairs.filter (fun p => truthy p.2.error)).map Prod.fst) := by
  induction pairs with
  | nil =>
    intro cs ts es _ _ _
    simp
  | cons p rest ih =>
    intro cs ts es hdec hfresh hnd
    rw [List.map_cons, List.nodup_cons] at hnd
    have hfp := hfresh p (List.mem_cons_self p rest)
    have hfreshrest : ∀ p' ∈ rest, p'.1 ≠ p.1 := by
      intro p' hp' hcon
      exact hnd.1 (hcon ▸ List.mem_map_of_mem Prod.fst hp')
    rw [List.foldl_cons]
    by_cases he : truthy p.2.error = true
    · have hstep : fetchStep (cs, ts, es) p =
          (cs, ts, setRec p.1 (p.2.error.getD "") es) := by
        simp [fetchStep, he]
      rw [hstep, setRec_fresh _ _ _ hfp.2]
      have hrec := ih cs ts (es ++ [(p.1, p.2.error.getD "")])
        (fun p' hp' => hdec p' (List.mem_cons_of_mem p hp'))
        (by
          intro p' hp'
          have hf := hfresh p' (List.mem_cons_of_mem p hp')
          refine ⟨hf.1, ?_⟩
          rw [List.map_append, List.mem_append]
          rintro (hcc | hcc)
          · exact hf.2 hcc
          · simp at hcc
            exact hfreshrest p' hp' hcc)
        hnd.2
      constructor
      · rw [hrec.1, List.filter_cons]
        simp [he]
      · rw [hrec.2, List.filter_cons]
        simp [he, List.map_append]
    · have heq : truthy p.2.error = false := by simpa using he
      have hc : truthy p.2.content = true := by
        rcases hdec p (List.mem_cons_self p rest) with h | h
        · exact absurd h he
        · exact h
      have hstep : fetchStep (cs, ts, es) p =
          (setRec p.1 (p.2.content.getD "") cs,
            (if truthy p.2.title then setRec p.1 (p.2.title.getD "") ts else ts), es) := by
        simp [fetchStep, heq, hc]
      rw [hstep, setRec_fresh _ _ _ hfp.1]
      have hrec := ih (cs ++ [(p.1, p.2.content.getD "")])
        (if truthy p.2.title then setRec p.1 (p.2.title.getD "") ts else ts) es
        (fun p' hp' => hdec p' (List.mem_cons_of_mem p hp'))
        (by
          intro p' hp'
          have hf := hfresh p' (List.mem_cons_of_mem p hp')
          refine ⟨?_, hf.2⟩
          rw [List.map_append, List.mem_append]
          rintro (hcc | hcc)
          · exact hf.1 hcc
          · simp at hcc
            exact hfreshrest p' hp' hcc)
        hnd.2
      constructor
      · rw [hrec.1, List.filter_cons]
        simp [heq, List.map_append]
      · rw [hrec.2, List.filter_cons]
        simp [heq]

/-- C5, counterexample to the claim as stated: a URL whose fetch settles
with no error but with empty extracted content (realizable by a 200
`text/html` response with an empty body: `extractContent("") = ""` and
`extractTitle("") = null`).  The empty string is falsy, so the URL lands in
neither `contents` nor `errors`, and `successCount + errorCount = 0` while
the input has one URL. -/
theorem fetchPages_c5_cex :
    (fetchPages ["u"] [⟨some "", none, none⟩]).successCount +
        (fetchPages ["u"] [⟨some "", none, none⟩]).errorCount = 0 ∧
      (fetchPages ["u"] [⟨some "", none, none⟩]).contents = [] ∧
      (fetchPages ["u"] [⟨some "", none, none⟩]).errors = [] ∧
      (["u"] : List String).length = 1 := by
  decide

/-- C5, amended: when the input URLs are pairwise distinct and every settled
outcome is decided — a truthy (non-null, non-empty) error or truthy content
— `successCount + errorCount` equals the number of URLs and the key sets of
`contents` and `errors` partition the input URL set; the empty input yields
the all-empty, all-zero structure unconditionally. -/
theorem fetchPages_c5_amended (urls : List String) (results : List SingleResult)
    (hlen : results.length = urls.length) (hnd : urls.Nodup)
    (hdec : ∀ r ∈ results, truthy r.error = true ∨ truthy r.content = true) :
    (fetchPages urls results).successCount + (fetchPages urls results).errorCount
        = urls.length ∧
      (∀ u, (u ∈ (fetchPages urls results).contents.map Prod.fst ∨
          u ∈ (fetchPages urls results).errors.map Prod.fst) ↔ u ∈ urls) ∧
      (∀ u, ¬(u ∈ (fetchPages urls results).contents.map Prod.fst ∧
          u ∈ (fetchPages urls results).errors.map Prod.fst)) ∧
      fetchPages [] [] = ⟨[], [], [], 0, 0⟩ := by
  have hle : urls.length ≤ results.length := le_of_eq hlen.symm
  have hfst : (urls.zip results).map Prod.fst = urls := List.map_fst_zip urls results hle
  have hnd' : ((urls.zip results).map Prod.fst).Nodup := by rw [hfst]; exact hnd
  have hdec' : ∀ p ∈ urls.zip results, truthy p.2.error = true ∨ truthy p.2.content = true :=
    fun p hp => hdec p.2 (List.of_mem_zip hp).2
  have hkeys := fetchFold_keys (urls.zip results) [] [] [] hdec' (by simp) hnd'
  have hzlen : (urls.zip results).length = urls.length := by
    rw [List.length_zip urls results, hlen, min_self]
  have hContents : (fetchPages urls results).contents.map Prod.fst =
      ((urls.zip results).filter (fun p => !(truthy p.2.error))).map Prod.fst := by
    simpa using hkeys.1
  have hErrors : (fetchPages urls results).errors.map Prod.fst =
      ((urls.zip results).filter (fun p => truthy p.2.error)).map Prod.fst := by
    simpa using hkeys.2
  refine ⟨?_, ?_, ?_, rfl⟩
  · have hsc : (fetchPages urls results).successCount =
        ((urls.zip results).filter (fun p => !(truthy p.2.error))).length := by
      have := congrArg List.length hContents
      simpa using this
    have hec : (fetchPages urls results).errorCount =
        ((urls.zip results).filter (fun p => truthy p.2.error)).length := by
      have := congrArg List.length hErrors
      simpa using this
    rw [hsc, hec, ← hzlen]
    have := length_filter_split (fun p => truthy p.2.error) (urls.zip results)
    omega
  · intro u
    rw [hContents, hErrors]
    constructor
    · rintro (hu | hu) <;>
      · rcases List.mem_map.mp hu with ⟨pp, hpp, rfl⟩
        rw [← hfst]
        exact List.mem_map_of_mem Prod.fst (List.mem_of_mem_filter hpp)
    · intro hu
      rw [← hfst] at hu
      rcases List.mem_map.mp hu with ⟨pp, hpp, rfl⟩
      by_cases he : truthy pp.2.error = true
      · right
        exact List.mem_map_of_mem Prod.fst (List.mem_filter.mpr ⟨hpp, he⟩)
      · left
        exact List.mem_map_of_mem Prod.fst (List.mem_filter.mpr ⟨hpp, by simpa using he⟩)
  · intro u
    rw [hContents, hErrors]
    rintro ⟨hu1, hu2⟩
    rcases List.mem_map.mp hu1 with ⟨pp, hpp, hppu⟩
    rcases List.mem_map.mp hu2 with ⟨qq, hqq, hqqu⟩
    have hpq : pp = qq := keys_unique (urls.zip results) hnd' pp
      (List.mem_of_mem_filter hpp) qq (List.mem_of_mem_filter hqq)
      (by rw [hppu, hqqu])
    have h1 := (List.mem_filter.mp hpp).2
    have h2 := (List.mem_filter.mp hqq).2
    rw [hpq] at h1
    simp at h1
    rw [h1] at h2
    exact absurd h2 (by simp)

/-- C5, witness: the amended theorem instantiated at two distinct URLs, the
first a success with content and the second an HTTP 404 error. -/
theorem fetchPages_c5_witness :
    (fetchPages ["a", "b"] [⟨some "x", some "T", none⟩, ⟨none, none, some "HTTP 404"⟩]).successCount +
        (fetchPages ["a", "b"] [⟨some "x", some "T", none⟩, ⟨none, none, some "HTTP 404"⟩]).errorCount
        = (["a", "b"] : List String).length ∧
      (∀ u, (u ∈ (fetchPages ["a", "b"] [⟨some "x", some "T", none⟩, ⟨none, none, some "HTTP 404"⟩]).contents.map Prod.fst ∨
          u ∈ (fetchPages ["a", "b"] [⟨some "x", some "T", none⟩, ⟨none, none, some "HTTP 404"⟩]).errors.map Prod.fst) ↔
          u ∈ (["a", "b"] : List String)) ∧
      (∀ u, ¬(u ∈ (fetchPages ["a", "b"] [⟨some "x", some "T", none⟩, ⟨none, none, some "HTTP 404"⟩]).contents.map Prod.fst ∧
          u ∈ (fetchPages ["a", "b"] [⟨some "x", some "T", none⟩, ⟨none, none, some "HTTP 404"⟩]).errors.map Prod.fst)) ∧
      fetchPages [] [] = ⟨[], [], [], 0, 0⟩ :=
  fetchPages_c5_amended ["a", "b"]
    [⟨some "x", some "T", none⟩, ⟨none, none, some "HTTP 404"⟩]
    rfl (by decide) (by decide)

/-!
Search-result aggregation for C10.
-/

theorem dedupSpec_mem (key : String → String) :
    ∀ l u, u ∈ dedupSpec key l → u ∈ l := by
  suffices H : ∀ n (l : List String), l.length = n → ∀ u, u ∈ dedupSpec key l → u ∈ l by
    intro l u hu
    exact H l.length l rfl u hu
  intro n
  induction n using Nat.strong_induction_on with
  | _ n ih =>
    intro l hn u hu
    cases l with
    | nil => simp [dedupSpec] at hu
    | cons v rest =>
      rw [dedupSpec] at hu
      rcases List.mem_cons.mp hu with h | h
      · exact h ▸ List.mem_cons_self v rest
      · have hlen : (rest.filter (fun w => !(key w == key v))).length < n := by
          subst hn
          simp only [List.length_cons]
          exact Nat.lt_succ_of_le (List.length_filter_le _ _)
        have := ih _ hlen _ rfl u h
        exact List.mem_cons_of_mem v (List.mem_of_mem_filter this)

theorem dedupSpec_nodup (key : String → String) :
    ∀ l, (dedupSpec key l).Nodup := by
  suffices H : ∀ n (l : List String), l.length = n → (dedupSpec key l).Nodup by
    intro l
    exact H l.length l rfl
  intro n
  induction n using Nat.strong_induction_on with
  | _ n ih =>
    intro l hn
    cases l with
    | nil => simp [dedupSpec]
    | cons v rest =>
      rw [dedupSpec, List.nodup_cons]
      have hlen : (rest.filter (fun w => !(key w == key v))).length < n := by
        subst hn
        simp only [List.length_cons]
        exact Nat.lt_succ_of_le (List.length_filter_le _ _)
      refine ⟨?_, ih _ hlen _ rfl⟩
      intro hv
      have := dedupSpec_mem key _ v hv
      have := (List.mem_filter.mp this).2
      simp at this

theorem dedupGo_nil_eq (key : String → String) (l : List String) :
    dedupGo key [] l = dedupSpec key l := by
  rw [dedupGo_eq_dedupSpec]
  congr 1
  rw [List.filter_eq_self]
  intro a _
  simp

theorem foldl_setRec_distinct (f : String → String) :
    ∀ (us : List String) (m : List (String × String)),
      (m.map Prod.fst ++ us).Nodup →
      us.foldl (fun m u => setRec u (f u) m) m = m ++ us.map (fun u => (u, f u)) := by
  intro us
  induction us with
  | nil =>
    intro m _
    simp
  | cons u us' ih =>
    intro m hnd
    have hdisj := (List.nodup_append.mp hnd).2.2
    have hu : u ∉ m.map Prod.fst := fun hm => hdisj hm (List.mem_cons_self u us')
    rw [List.foldl_cons, setRec_fresh u (f u) m hu]
    have hnd' : ((m ++ [(u, f u)]).map Prod.fst ++ us').Nodup := by
      rw [List.map_append, List.append_assoc]
      simpa using hnd
    rw [ih (m ++ [(u, f u)]) hnd', List.append_assoc]
    rfl

theorem lookup_map_self (f : String → String) :
    ∀ (us : List String) u, u ∈ us →
      List.lookup u (us.map (fun v => (v, f v))) = some (f u) := by
  intro us
  induction us with
  | nil => simp
  | cons v us' ih =>
    intro u hu
    rw [List.map_cons, List.lookup]
    by_cases huv : u = v
    · subst huv
      simp
    · have hb : (u == v) = false := beq_eq_false_iff_ne.mpr huv
      rw [hb]
      exact ih u ((List.mem_cons.mp hu).resolve_left huv)

/-- C10: the `snippets` and `titles` objects returned by `multiSearch` have
exactly the deduplicated URL list as their keys (in the same order); every
surviving URL's value is the recorded first-occurrence snippet/title when
one was recorded, defaulted to the empty string by `|| ""` otherwise — in
particular a surviving URL whose snippet was never recorded maps to the
empty string. -/
theorem multiSearchAgg_c10 (parse : String → Option ParsedUrl)
    (allResults : List (List RawResult)) :
    (multiSearchAgg parse allResults).2.1.map Prod.fst =
        (multiSearchAgg parse allResults).1 ∧
      (multiSearchAgg parse allResults).2.2.map Prod.fst =
        (multiSearchAgg parse allResults).1 ∧
      (∀ u ∈ (multiSearchAgg parse allResults).1,
        List.lookup u (multiSearchAgg parse allResults).2.1 =
            some ((List.lookup u (collectMaps allResults).1).getD "") ∧
          List.lookup u (multiSearchAgg parse allResults).2.2 =
            some ((List.lookup u (collectMaps allResults).2.1).getD "")) ∧
      (∀ u ∈ (multiSearchAgg parse allResults).1,
        List.lookup u (collectMaps allResults).1 = none →
          List.lookup u (multiSearchAgg parse allResults).2.1 = some "") := by
  have hnodup : (dedupGo (normalizeUrl parse) [] (collectMaps allResults).2.2).Nodup := by
    rw [dedupGo_nil_eq]
    exact dedupSpec_nodup _ _
  have hurls : (multiSearchAgg parse allResults).1 =
      dedupGo (normalizeUrl parse) [] (collectMaps allResults).2.2 := rfl
  have hsnip : (multiSearchAgg parse allResults).2.1 =
      (dedupGo (normalizeUrl parse) [] (collectMaps allResults).2.2).map
        (fun u => (u, (List.lookup u (collectMaps allResults).1).getD "")) :=
    foldl_setRec_distinct _ _ [] hnodup
  have htit : (multiSearchAgg parse allResults).2.2 =
      (dedupGo (normalizeUrl parse) [] (collectMaps allResults).2.2).map
        (fun u => (u, (List.lookup u (collectMaps allResults).2.1).getD "")) :=
    foldl_setRec_distinct _ _ [] hnodup
  have hval : ∀ u ∈ (multiSearchAgg parse allResults).1,
      List.lookup u (multiSearchAgg parse allResults).2.1 =
          some ((List.lookup u (collectMaps allResults).1).getD "") ∧
        List.lookup u (multiSearchAgg parse allResults).2.2 =
          some ((List.lookup u (collectMaps allResults).2.1).getD "") := by
    intro u hu
    rw [hurls] at hu
    rw [hsnip, htit]
    exact ⟨lookup_map_self _ _ u hu, lookup_map_self _ _ u hu⟩
  refine ⟨?_, ?_, hval, ?_⟩
  · rw [hsnip, hurls, List.map_map]
    exact List.map_id _
  · rw [htit, hurls, List.map_map]
    exact List.map_id _
  · intro u hu hnone
    have := (hval u hu).1
    rw [hnone] at this
    exact this

end WebResearch
